import Mathlib

/-!
Shallow embedding of the pitch-analysis pipeline of
`src/src/components/AudioPlayer.jsx` (music-practice-app).

Times and frequencies are modelled as exact rationals (`ℚ`); the JavaScript
source computes with IEEE doubles, but every claim under scrutiny is about the
exact arithmetic the code writes down.  Machine-level `Math.log2`/`Math.round`
in `getMidi` is modelled by an integer-logarithm formulation; the lemma
`getMidi_eq_round_logb` proves it equal to `round (69 + 12 * logb 2 (f/440))`
over the reals for every positive frequency.
-/

/-- The empty string (used where the source writes `""` / a falsy root key). -/
def emptyStr : String := ""

/-- `NOTES` table from AudioPlayer.jsx line 8: the fixed 12-entry chromatic
table starting at C. -/
def NOTES : List String :=
  ["C", "C#", "D", "D#", "E", "F"] ++ ["F#", "G", "G#", "A", "A#", "B"]

/-- `SARGAM_MAPPING` table from AudioPlayer.jsx line 9. -/
def SARGAM_MAPPING : List String :=
  ["Sa", "re", "Re", "ga", "Ga", "Ma", "MA", "Pa", "dha", "Dha", "ni", "Ni"]

/-- A pitch segment `{startTime, endTime, freq}` as built by the segment
builders (AudioPlayer.jsx lines 184-188 and 260-264). -/
structure Segment where
  startTime : ℚ
  endTime : ℚ
  freq : ℚ
deriving DecidableEq

instance : Inhabited Segment := ⟨⟨0, 0, 0⟩⟩

/-- A stable note event as pushed by `processRun`
(AudioPlayer.jsx lines 458-466). -/
structure Event where
  startTime : ℚ
  endTime : ℚ
  avgFreq : ℚ
  midi : ℤ
  label : String
  fullNote : String
  displayLabel : String
deriving DecidableEq

instance : Inhabited Event := ⟨⟨0, 0, 0, 0, emptyStr, emptyStr, emptyStr⟩⟩

/-- `getMidi` (AudioPlayer.jsx lines 157-160):
`Math.round(69 + 12 * Math.log2(freq / 440))`, for positive `freq`.

Formulated via the integer logarithm so that it is computable on `ℚ`:
for `f > 0`, `round (69 + 12 * log2 (f/440)) = ⌊(log2 ((f/440)^24 * 2^139)) / 2⌋`,
because `69.5 + 12 * log2 (f/440) = log2 ((f/440)^24 * 2^139) / 2`.
`getMidi_eq_round_logb` below certifies the equality with the source formula.
(`/` on `ℤ` is Euclidean division, which is floor division for the positive
divisor `2`.) -/
def getMidi (freq : ℚ) : ℤ :=
  Int.log 2 ((freq / 440) ^ 24 * 2 ^ 139) / 2

/-- The shared segment-building loop (AudioPlayer.jsx lines 177-189 for the
file pipeline; lines 256-265 for the live pipeline): walk the per-window
frequency stream with its frame index, drop a frame when the detector returned
no pitch (`!freq`, i.e. `none` or `0`) or the estimate falls outside the noise
gate, otherwise emit a segment `[i * T, (i+1) * T)` carrying the estimate
unchanged, where `T` is the frame period. -/
def buildSegments (gateMin gateMax T : ℚ) : ℕ → List (Option ℚ) → List Segment
  | _, [] => []
  | i, none :: rest => buildSegments gateMin gateMax T (i + 1) rest
  | i, some freq :: rest =>
    if freq = 0 ∨ freq < gateMin ∨ gateMax < freq then
      buildSegments gateMin gateMax T (i + 1) rest
    else
      ⟨(i : ℚ) * T, ((i : ℚ) + 1) * T, freq⟩ :: buildSegments gateMin gateMax T (i + 1) rest

/-- File-pipeline window size (AudioPlayer.jsx line 166, `bufferSize = 2048`).
The file pipeline hops by the same amount (`i += bufferSize`). -/
def fileWindowSize : ℕ := 2048

/-- File-pipeline hop size: the file loop advances by `bufferSize`. -/
def fileHopSize : ℕ := 2048

/-- Live-pipeline window size (AudioPlayer.jsx line 240, `windowSize = 2048`). -/
def liveWindowSize : ℕ := 2048

/-- Live-pipeline hop size (AudioPlayer.jsx line 241, `hopSize = 512`). -/
def liveHopSize : ℕ := 512

/-- Segment building of the file pipeline (`processBufferToSegments`,
AudioPlayer.jsx lines 177-190): gate `60..1100` Hz, frame period
`bufferSize / sampleRate`. -/
def fileSegments (pitches : List (Option ℚ)) (sampleRate : ℚ) : List Segment :=
  buildSegments 60 1100 ((fileHopSize : ℚ) / sampleRate) 0 pitches

/-- Raw segment building of the live pipeline (`analyzeUserAudio` step 3,
AudioPlayer.jsx lines 256-265): gate `50..1200` Hz, frame period
`hopSize / sampleRate`; the `j`-th retained frame starts at sample index
`j * hopSize`, i.e. at time `j * (hopSize / sampleRate)`. -/
def liveRawSegments (pitches : List (Option ℚ)) (sampleRate : ℚ) : List Segment :=
  buildSegments 50 1200 ((liveHopSize : ℚ) / sampleRate) 0 pitches

/-- `[prev, curr, next].sort((a, b) => a - b)[1]` (AudioPlayer.jsx line 273):
numeric sort of the three taps, middle element. -/
def median3 (a b c : ℚ) : ℚ :=
  (List.insertionSort (fun x y => x ≤ y) [a, b, c]).getD 1 b

/-- Median filter of the live pipeline (`analyzeUserAudio` step 4,
AudioPlayer.jsx lines 267-278): positionally over the raw segment list,
each segment keeps its time span and its frequency is replaced by the median
of the raw neighbours (self-padding at the two ends). -/
def medianSmooth (xs : List Segment) : List Segment :=
  xs.mapIdx fun i s =>
    let prev := if 0 < i then (xs.getD (i - 1) s).freq else s.freq
    let curr := s.freq
    let next := if i < xs.length - 1 then (xs.getD (i + 1) s).freq else curr
    { s with freq := median3 prev curr next }

/-- The `s`-th (1-based) synthetic segment interpolating between `cur` and
`next` (AudioPlayer.jsx lines 289-296). -/
def synthAt (cur next : Segment) (T : ℚ) (steps : ℕ) (s : ℕ) : Segment :=
  let t : ℚ := (s : ℚ) / ((steps : ℚ) + 1)
  ⟨cur.endTime + ((s : ℚ) - 1) * T,
   cur.endTime + (s : ℚ) * T,
   cur.freq * (1 - t) + next.freq * t⟩

/-- The synthetic segments inserted after `cur` when `next` follows it
(`analyzeUserAudio` step 5, AudioPlayer.jsx lines 285-298): only when
`0 < gap < 1.5`, with `steps = max(1, round(gap / T))` segments. -/
def gapFill (T : ℚ) (cur next : Segment) : List Segment :=
  let gap := next.startTime - cur.endTime
  if 0 < gap ∧ gap < 1.5 then
    let steps : ℕ := max 1 (round (gap / T)).toNat
    (List.range steps).map fun k => synthAt cur next T steps (k + 1)
  else []

/-- Gap interpolation of the live pipeline (`analyzeUserAudio` step 5,
AudioPlayer.jsx lines 280-299): push each smoothed segment, then between each
adjacent pair push the synthetic segments of `gapFill`. -/
def fillGaps (T : ℚ) : List Segment → List Segment
  | [] => []
  | [a] => [a]
  | a :: b :: rest => a :: (gapFill T a b ++ fillGaps T (b :: rest))

/-- Full post-processing of the live pipeline on a frequency-frame stream:
raw segments, median smoothing, then gap filling. -/
def liveFilledSegments (pitches : List (Option ℚ)) (sampleRate : ℚ) : List Segment :=
  fillGaps ((liveHopSize : ℚ) / sampleRate) (medianSmooth (liveRawSegments pitches sampleRate))

/-- The absolute note name computed inside `processRun` (AudioPlayer.jsx
lines 441-443): `NOTES[midi % 12]` concatenated with
`Math.floor(midi / 12) - 1`.  (`Int.emod` agrees with the JavaScript `%` on
the non-negative MIDI numbers every gated frequency produces, and `Int.fdiv`
is exactly `Math.floor` of the division.) -/
def fullNoteOf (midi : ℤ) : String :=
  NOTES.getD (midi.emod 12).toNat emptyStr ++ toString (midi.fdiv 12 - 1)

/-- The display label computed inside `processRun` (AudioPlayer.jsx
lines 445-456): the sargam scale-degree label when sargam display is on, a
root key is configured (`showSargam && rootKey`), and the root key is found in
`NOTES` (`indexOf !== -1`); otherwise the absolute note name. -/
def noteLabelOf (ss : Bool) (rk : String) (midi : ℤ) : String :=
  if ss = true ∧ rk ≠ emptyStr then
    if NOTES.contains rk then
      SARGAM_MAPPING.getD
        (((NOTES.indexOf (NOTES.getD (midi.emod 12).toNat emptyStr) : ℤ) -
            (NOTES.indexOf rk : ℤ) + 12).emod 12).toNat
        emptyStr
    else fullNoteOf midi
  else fullNoteOf midi

/-- `processRun` (AudioPlayer.jsx lines 430-468): close out a run.  Emits an
event only when the run is non-empty and its total span exceeds `0.15` s;
the event carries the unweighted mean frequency, its MIDI number, the absolute
note name, and (when sargam display is on and a root key is configured and
found in `NOTES`) the movable scale-degree label. -/
def processRun (ss : Bool) (rk : String) (run : List Segment) : Option Event :=
  match run with
  | [] => none
  | s0 :: rest =>
    let lastSeg := (s0 :: rest).getLast (List.cons_ne_nil s0 rest)
    let startTime := s0.startTime
    let endTime := lastSeg.endTime
    if endTime - startTime > 0.15 then
      let avgFreq := (((s0 :: rest).map Segment.freq).sum) / (((s0 :: rest).length : ℚ))
      let midi := getMidi avgFreq
      let fullNote := fullNoteOf midi
      let label := noteLabelOf ss rk midi
      some ⟨startTime, endTime, avgFreq, midi, label, fullNote, label⟩
    else none

/-- The run-continuity condition of the aggregator (AudioPlayer.jsx line 480):
the incoming segment `b` extends a run ending in `a` iff the MIDI numbers
agree and the time gap is under `0.1` s. -/
def contOK (a b : Segment) : Prop :=
  getMidi b.freq = getMidi a.freq ∧ b.startTime - a.endTime < 0.1

instance (a b : Segment) : Decidable (contOK a b) := by
  unfold contOK; infer_instance

/-- The aggregation loop (AudioPlayer.jsx lines 470-490): walk the segments
keeping the current run; extend the run when `contOK` holds against its last
segment, otherwise close it out with `processRun` and start a fresh run; at
sequence end close out the open run. -/
def stableLoop (ss : Bool) (rk : String) (events : List Event) (currentRun : List Segment) :
    List Segment → List Event
  | [] => events ++ (processRun ss rk currentRun).toList
  | seg :: rest =>
    match currentRun with
    | [] => stableLoop ss rk events [seg] rest
    | c :: cs =>
      if contOK ((c :: cs).getLast (List.cons_ne_nil c cs)) seg then
        stableLoop ss rk events ((c :: cs) ++ [seg]) rest
      else
        stableLoop ss rk (events ++ (processRun ss rk (c :: cs)).toList) [seg] rest

/-- `stableNotes` (AudioPlayer.jsx lines 424-493): the aggregator.  Empty
input short-circuits to `[]` (line 425). -/
def stableNotes (ss : Bool) (rk : String) (segs : List Segment) : List Event :=
  if segs.isEmpty then [] else stableLoop ss rk [] [] segs

/-- The partition of the segment list into the runs the aggregator walks:
same loop structure as `stableLoop`, collecting the runs instead of the
events. -/
def runsAux (currentRun : List Segment) : List Segment → List (List Segment)
  | [] => [currentRun]
  | seg :: rest =>
    match currentRun with
    | [] => runsAux [seg] rest
    | c :: cs =>
      if contOK ((c :: cs).getLast (List.cons_ne_nil c cs)) seg then
        runsAux ((c :: cs) ++ [seg]) rest
      else
        (c :: cs) :: runsAux [seg] rest

/-- The runs of a segment list. -/
def runsOf : List Segment → List (List Segment)
  | [] => []
  | seg :: rest => runsAux [seg] rest

/-- Model of the frame loop of `processBufferToSegments`
(AudioPlayer.jsx lines 163-190), with the frequency estimator `detect` kept
abstract: the buffer is cut into 2048-sample chunks
(`channelData.slice(i, i + bufferSize)` for `i = 0, 2048, 4096, ...`), the
estimator is invoked once per chunk, and the results feed the segment builder.
The first component lists the per-chunk estimator results — one entry per
estimator call. -/
def processBufferToSegmentsModel (samples : List ℚ) (sampleRate : ℚ)
    (detect : List ℚ → Option ℚ) : List (Option ℚ) × List Segment :=
  let pitches := (samples.toChunks fileWindowSize).map detect
  (pitches, fileSegments pitches sampleRate)


/-- A frame survives the noise gate: the detector returned a frequency and it
is non-zero and inside the gate. -/
def framePasses (gateMin gateMax : ℚ) : Option ℚ → Bool
  | none => false
  | some f => decide (¬(f = 0 ∨ f < gateMin ∨ gateMax < f))

/-- Two adjacent runs break the continuity condition at their boundary. -/
def runBreak (r₁ r₂ : List Segment) : Prop :=
  ∀ a ∈ r₁.getLast?, ∀ b ∈ r₂.head?, ¬ contOK a b

/-- Segment `a` ends no later than segment `b` starts. -/
def SegLE (a b : Segment) : Prop := a.endTime ≤ b.startTime

/-- Event `a` ends no later than event `b` starts. -/
def EvLE (a b : Event) : Prop := a.endTime ≤ b.startTime

/-- A well-laid-out segment list: each segment has a non-negative span and
consecutive segments do not properly overlap.  Both pipeline variants produce
such lists. -/
def Laid (segs : List Segment) : Prop :=
  (∀ s ∈ segs, s.startTime ≤ s.endTime) ∧ segs.Chain' SegLE

/-- A segment list lying on the frame grid of period `T`: ordered, and
every segment spans exactly one frame `[k*T, (k+1)*T]`. -/
def OnGrid (T : ℚ) (segs : List Segment) : Prop :=
  segs.Chain' SegLE ∧
    ∀ s ∈ segs, ∃ k : ℕ, s.startTime = (k : ℚ) * T ∧ s.endTime = ((k : ℚ) + 1) * T

/-- The twelve root keys and labels used in the concrete scale-degree
checks. -/
def keyC : String := "C"

/-- Root key D. -/
def keyD : String := "D"

/-- The tonic label. -/
def strSa : String := "Sa"

/-- The major-second label. -/
def strRe : String := "Re"

/-- The perfect-fifth label. -/
def strPa : String := "Pa"

/-! ### Theory of `getMidi` -/

/-- Characterisation of `getMidi` by powers of two. -/
lemma getMidi_eq_iff (q : ℚ) (hq : 0 < q) (m : ℤ) :
    getMidi q = m ↔
      (2 : ℚ) ^ (2 * m) ≤ (q / 440) ^ 24 * 2 ^ 139 ∧
        (q / 440) ^ 24 * 2 ^ 139 < (2 : ℚ) ^ (2 * m + 2) := by
  have hy : (0 : ℚ) < (q / 440) ^ 24 * 2 ^ 139 := by positivity
  set y : ℚ := (q / 440) ^ 24 * 2 ^ 139 with hydef
  set L : ℤ := Int.log 2 y with hL
  have h2 : (1 : ℕ) < 2 := by norm_num
  have hle : (2 : ℚ) ^ (2 * m) ≤ y ↔ 2 * m ≤ L := by
    have := Int.zpow_le_iff_le_log (R := ℚ) h2 (x := 2 * m) hy
    simpa using this
  have hlt : y < (2 : ℚ) ^ (2 * m + 2) ↔ L < 2 * m + 2 := by
    have := Int.lt_zpow_iff_log_lt (R := ℚ) h2 (x := 2 * m + 2) hy
    simpa using this
  rw [hle, hlt]
  unfold getMidi
  rw [← hydef, ← hL]
  constructor
  · rintro rfl
    constructor
    · rw [mul_comm]
      exact (Int.le_ediv_iff_mul_le (by norm_num)).mp le_rfl
    · have : L / 2 < L / 2 + 1 := by omega
      have := (Int.ediv_lt_iff_lt_mul (a := L) (b := L / 2 + 1) (c := 2) (by norm_num)).mp this
      omega
  · rintro ⟨ha, hb⟩
    have h1 : m ≤ L / 2 := (Int.le_ediv_iff_mul_le (by norm_num)).mpr (by omega)
    have h2' : L / 2 < m + 1 := (Int.ediv_lt_iff_lt_mul (by norm_num)).mpr (by omega)
    omega

lemma getMidi_eval (q : ℚ) (hq : 0 < q) (m : ℕ)
    (h1 : (2 : ℚ) ^ (2 * m) * 440 ^ 24 ≤ q ^ 24 * 2 ^ 139)
    (h2 : q ^ 24 * 2 ^ 139 < (2 : ℚ) ^ (2 * m + 2) * 440 ^ 24) :
    getMidi q = m := by
  rw [getMidi_eq_iff q hq m]
  have h440 : (0 : ℚ) < 440 ^ 24 := by positivity
  have hdiv : (q / 440) ^ 24 * 2 ^ 139 = q ^ 24 * 2 ^ 139 / 440 ^ 24 := by
    rw [div_pow]; ring
  rw [hdiv]
  constructor
  · rw [le_div_iff h440]
    calc (2 : ℚ) ^ (2 * (m : ℤ)) * 440 ^ 24 = (2 : ℚ) ^ (2 * m) * 440 ^ 24 := by
          rw [show (2 * (m : ℤ)) = ((2 * m : ℕ) : ℤ) by push_cast; ring, zpow_natCast]
      _ ≤ q ^ 24 * 2 ^ 139 := h1
  · rw [div_lt_iff h440]
    calc q ^ 24 * 2 ^ 139 < (2 : ℚ) ^ (2 * m + 2) * 440 ^ 24 := h2
      _ = (2 : ℚ) ^ (2 * (m : ℤ) + 2) * 440 ^ 24 := by
          rw [show (2 * (m : ℤ) + 2) = ((2 * m + 2 : ℕ) : ℤ) by push_cast; ring, zpow_natCast]

lemma getMidi_mono {a b : ℚ} (ha : 0 < a) (hab : a ≤ b) : getMidi a ≤ getMidi b := by
  unfold getMidi
  apply Int.ediv_le_ediv (by norm_num)
  apply Int.log_mono_right (by positivity)
  gcongr
  all_goals first | positivity | linarith

/-- Floor of a real halved is the (floor-)half of its floor. -/
lemma floor_half_eq (z : ℝ) : ⌊z / 2⌋ = ⌊z⌋ / 2 := by
  have hL : (⌊z⌋ : ℝ) ≤ z := Int.floor_le z
  have hU : z < ⌊z⌋ + 1 := Int.lt_floor_add_one z
  set L : ℤ := ⌊z⌋ with hLdef
  have hdecomp : L = 2 * (L / 2) + L % 2 := (Int.ediv_add_emod L 2).symm
  have hr0 : 0 ≤ L % 2 := Int.emod_nonneg L (by norm_num)
  have hr1 : L % 2 < 2 := Int.emod_lt_of_pos L (by norm_num)
  have hr0' : (0 : ℝ) ≤ ((L % 2 : ℤ) : ℝ) := by exact_mod_cast hr0
  have hr1' : ((L % 2 : ℤ) : ℝ) ≤ 1 := by exact_mod_cast Int.lt_add_one_iff.mp hr1
  rw [Int.floor_eq_iff]
  constructor
  · have h : ((2 * (L / 2) + L % 2 : ℤ) : ℝ) ≤ z := by rw [← hdecomp]; exact hL
    push_cast at h ⊢
    linarith [h, hr0']
  · have h : z < ((2 * (L / 2) + L % 2 : ℤ) : ℝ) + 1 := by rw [← hdecomp]; exact hU
    push_cast at h ⊢
    linarith [h, hr1']

lemma intLog_ratCast (y : ℚ) (hy : 0 < y) : Int.log 2 ((y : ℝ)) = Int.log 2 y := by
  have hy' : (0 : ℝ) < (y : ℝ) := by exact_mod_cast hy
  have hq2 : ((2 : ℕ) : ℚ) = (2 : ℚ) := by norm_num
  have hr2 : ((2 : ℕ) : ℝ) = (2 : ℝ) := by norm_num
  have h1q : (2 : ℚ) ^ (Int.log 2 y) ≤ y := by
    rw [← hq2]; exact Int.zpow_log_le_self (by norm_num) hy
  have h1 : ((2 : ℕ) : ℝ) ^ (Int.log 2 y) ≤ (y : ℝ) := by
    rw [hr2]
    have h := (Rat.cast_le (K := ℝ)).mpr h1q
    push_cast at h
    exact h
  have h2q : y < (2 : ℚ) ^ (Int.log 2 y + 1) := by
    rw [← hq2]; exact Int.lt_zpow_succ_log_self (by norm_num) y
  have h2 : (y : ℝ) < ((2 : ℕ) : ℝ) ^ (Int.log 2 y + 1) := by
    rw [hr2]
    have h := (Rat.cast_lt (K := ℝ)).mpr h2q
    push_cast at h
    exact h
  apply le_antisymm
  · have := (Int.lt_zpow_iff_log_lt (R := ℝ) (b := 2) (by norm_num) hy').mp h2
    omega
  · exact (Int.zpow_le_iff_le_log (R := ℝ) (b := 2) (by norm_num) hy').mp h1

lemma getMidi_eq_round_logb (q : ℚ) (hq : 0 < q) :
    getMidi q = round (69 + 12 * Real.logb 2 ((q : ℝ) / 440)) := by
  have hx0 : (0 : ℝ) < (q : ℝ) / 440 := by positivity
  set x : ℝ := (q : ℝ) / 440 with hxdef
  have hY0 : (0 : ℝ) < x ^ 24 * 2 ^ 139 := by positivity
  have hlogY : Real.logb 2 (x ^ 24 * 2 ^ 139) = 24 * Real.logb 2 x + 139 := by
    rw [Real.logb_mul (by positivity) (by positivity), Real.logb_pow, Real.logb_pow,
      Real.logb_self_eq_one (by norm_num)]
    push_cast; ring
  have hkey : 69 + 12 * Real.logb 2 x + 1 / 2 = Real.logb 2 (x ^ 24 * 2 ^ 139) / 2 := by
    rw [hlogY]; ring
  rw [round_eq, hkey, floor_half_eq]
  have hcast : x ^ 24 * 2 ^ 139 = (((q / 440) ^ 24 * 2 ^ 139 : ℚ) : ℝ) := by
    push_cast [hxdef]; ring
  have hfloor : ⌊Real.logb 2 (x ^ 24 * 2 ^ 139)⌋ = Int.log 2 ((q / 440) ^ 24 * 2 ^ 139) := by
    rw [hcast]
    have h2 : ((2 : ℕ) : ℝ) = (2 : ℝ) := by norm_num
    rw [← h2, Real.floor_logb_natCast (by positivity)]
    exact intLog_ratCast _ (by positivity)
  rw [hfloor, getMidi]

/-- `getMidi` at 440 Hz is MIDI 69 (A4). -/
lemma getMidi_440 : getMidi 440 = 69 := by
  apply getMidi_eval 440 (by norm_num) 69 <;> norm_num

/-- `getMidi` at 880 Hz is MIDI 81 (A5). -/
lemma getMidi_880 : getMidi 880 = 81 := by
  apply getMidi_eval 880 (by norm_num) 81 <;> norm_num

/-! ### Theory of the segment builders -/


lemma buildSegments_mem (gmin gmax T : ℚ) :
    ∀ (frames : List (Option ℚ)) (i : ℕ) (seg : Segment),
      seg ∈ buildSegments gmin gmax T i frames ↔
        ∃ j f, frames[j]? = some (some f) ∧ ¬(f = 0 ∨ f < gmin ∨ gmax < f) ∧
          seg = ⟨((i + j : ℕ) : ℚ) * T, (((i + j : ℕ) : ℚ) + 1) * T, f⟩ := by
  intro frames
  induction frames with
  | nil => intro i seg; simp [buildSegments]
  | cons hd tl ih =>
    intro i seg
    match hd with
    | none =>
      rw [buildSegments]
      rw [ih (i + 1) seg]
      constructor
      · rintro ⟨j, f, hj, hf, hseg⟩
        refine ⟨j + 1, f, by simpa using hj, hf, ?_⟩
        have : i + 1 + j = i + (j + 1) := by omega
        rw [← this]; exact hseg
      · rintro ⟨j, f, hj, hf, hseg⟩
        match j with
        | 0 => simp at hj
        | j + 1 =>
          refine ⟨j, f, by simpa using hj, hf, ?_⟩
          have : i + 1 + j = i + (j + 1) := by omega
          rw [this]; exact hseg
    | some q =>
      rw [buildSegments]
      by_cases hq : q = 0 ∨ q < gmin ∨ gmax < q
      · rw [if_pos hq, ih (i + 1) seg]
        constructor
        · rintro ⟨j, f, hj, hf, hseg⟩
          refine ⟨j + 1, f, by simpa using hj, hf, ?_⟩
          have : i + 1 + j = i + (j + 1) := by omega
          rw [← this]; exact hseg
        · rintro ⟨j, f, hj, hf, hseg⟩
          match j with
          | 0 =>
            simp only [List.getElem?_cons_zero, Option.some.injEq] at hj
            exact absurd hq (by rw [← hj] at hf; exact hf)
          | j + 1 =>
            refine ⟨j, f, by simpa using hj, hf, ?_⟩
            have : i + 1 + j = i + (j + 1) := by omega
            rw [this]; exact hseg
      · rw [if_neg hq]
        simp only [List.mem_cons, ih (i + 1) seg]
        constructor
        · rintro (rfl | ⟨j, f, hj, hf, hseg⟩)
          · exact ⟨0, q, by simp, hq, by simp⟩
          · refine ⟨j + 1, f, by simpa using hj, hf, ?_⟩
            have : i + 1 + j = i + (j + 1) := by omega
            rw [← this]; exact hseg
        · rintro ⟨j, f, hj, hf, hseg⟩
          match j with
          | 0 =>
            simp only [List.getElem?_cons_zero, Option.some.injEq] at hj
            left
            rw [hseg, ← hj]
            simp
          | j + 1 =>
            right
            refine ⟨j, f, by simpa using hj, hf, ?_⟩
            have : i + 1 + j = i + (j + 1) := by omega
            rw [this]; exact hseg

lemma buildSegments_length (gmin gmax T : ℚ) :
    ∀ (frames : List (Option ℚ)) (i : ℕ),
      (buildSegments gmin gmax T i frames).length = frames.countP (framePasses gmin gmax) := by
  intro frames
  induction frames with
  | nil => intro i; simp [buildSegments]
  | cons hd tl ih =>
    intro i
    match hd with
    | none => rw [buildSegments, ih]; simp [List.countP_cons, framePasses]
    | some q =>
      rw [buildSegments]
      by_cases hq : q = 0 ∨ q < gmin ∨ gmax < q
      · rw [if_pos hq, ih]
        simp [List.countP_cons, framePasses, hq]
      · rw [if_neg hq]
        simp only [List.length_cons, ih]
        simp [List.countP_cons, framePasses, hq]

lemma buildSegments_grid (gmin gmax T : ℚ) (hT : 0 < T) :
    ∀ (frames : List (Option ℚ)) (i : ℕ),
      (buildSegments gmin gmax T i frames).Chain' (fun a b => a.endTime ≤ b.startTime) ∧
      ∀ seg ∈ buildSegments gmin gmax T i frames,
        ∃ k : ℕ, i ≤ k ∧ seg.startTime = (k : ℚ) * T ∧ seg.endTime = ((k : ℚ) + 1) * T := by
  intro frames
  induction frames with
  | nil => intro i; simp [buildSegments]
  | cons hd tl ih =>
    intro i
    have step : ∀ seg ∈ buildSegments gmin gmax T (i + 1) tl,
        ∃ k : ℕ, i ≤ k ∧ seg.startTime = (k : ℚ) * T ∧ seg.endTime = ((k : ℚ) + 1) * T := by
      intro seg hseg
      obtain ⟨k, hk, h1, h2⟩ := (ih (i + 1)).2 seg hseg
      exact ⟨k, by omega, h1, h2⟩
    match hd with
    | none => rw [buildSegments]; exact ⟨(ih (i + 1)).1, step⟩
    | some q =>
      rw [buildSegments]
      by_cases hq : q = 0 ∨ q < gmin ∨ gmax < q
      · rw [if_pos hq]; exact ⟨(ih (i + 1)).1, step⟩
      · rw [if_neg hq]
        constructor
        · rw [List.chain'_cons']
          refine ⟨?_, (ih (i + 1)).1⟩
          intro h hh
          have hmem : h ∈ buildSegments gmin gmax T (i + 1) tl := by
            exact List.mem_of_mem_head? hh
          obtain ⟨k, hk, h1, _⟩ := (ih (i + 1)).2 h hmem
          simp only [h1]
          have : ((i : ℚ) + 1) ≤ (k : ℚ) := by exact_mod_cast hk
          nlinarith
        · intro seg hseg
          rcases List.mem_cons.mp hseg with rfl | hseg
          · exact ⟨i, le_rfl, rfl, rfl⟩
          · exact step seg hseg

/-! ### Theory of the median smoother -/

lemma getD_one_of_three (x y z w : ℚ) : [x, y, z].getD 1 w = y := rfl

lemma median3_eq (a b c : ℚ) :
    median3 a b c = a + b + c - min (min a b) c - max (max a b) c := by
  by_cases h1 : b ≤ c <;> by_cases h2 : a ≤ b <;> by_cases h3 : a ≤ c <;>
    simp [median3, List.insertionSort, List.orderedInsert, h1, h2, h3,
      getD_one_of_three, min_def, max_def] <;> linarith

lemma medianSmooth_length (xs : List Segment) : (medianSmooth xs).length = xs.length := by
  simp [medianSmooth]

lemma medianSmooth_get (xs : List Segment) (i : ℕ) (hi : i < xs.length)
    (hi2 : i < (medianSmooth xs).length) :
    (medianSmooth xs).get ⟨i, hi2⟩ =
      { xs.get ⟨i, hi⟩ with
        freq := median3
          (if 0 < i then (xs.getD (i - 1) (xs.get ⟨i, hi⟩)).freq else (xs.get ⟨i, hi⟩).freq)
          ((xs.get ⟨i, hi⟩).freq)
          (if i < xs.length - 1 then (xs.getD (i + 1) (xs.get ⟨i, hi⟩)).freq
            else (xs.get ⟨i, hi⟩).freq) } := by
  simp [medianSmooth, List.get_eq_getElem, List.getElem_mapIdx]

/-! ### Theory of the gap interpolator -/

lemma gapFill_of_no_gap (T : ℚ) (cur next : Segment)
    (h : ¬(0 < next.startTime - cur.endTime ∧ next.startTime - cur.endTime < 1.5)) :
    gapFill T cur next = [] := by
  simp only [gapFill, if_neg h]

lemma gapFill_of_gap (T : ℚ) (cur next : Segment)
    (h1 : 0 < next.startTime - cur.endTime) (h2 : next.startTime - cur.endTime < 1.5) :
    gapFill T cur next =
      (List.range (max 1 (round ((next.startTime - cur.endTime) / T)).toNat)).map
        fun k => synthAt cur next T (max 1 (round ((next.startTime - cur.endTime) / T)).toNat)
          (k + 1) := by
  simp only [gapFill, if_pos (And.intro h1 h2)]

lemma synthAt_freq_mid (cur next : Segment) (T : ℚ) (steps s : ℕ)
    (h : 2 * s = steps + 1) :
    (synthAt cur next T steps s).freq = (cur.freq + next.freq) / 2 := by
  have hs : ((steps : ℚ) + 1) = 2 * (s : ℚ) := by exact_mod_cast h.symm
  have hs0 : (s : ℚ) ≠ 0 := by
    intro h0
    rw [h0] at hs
    have hnn : (0 : ℚ) ≤ (steps : ℚ) := Nat.cast_nonneg steps
    norm_num at hs
    linarith
  simp only [synthAt]
  rw [hs]
  field_simp
  ring

/-! ### Aggregator lemmas -/


lemma processRun_nil (ss : Bool) (rk : String) : processRun ss rk [] = none := rfl

lemma stableLoop_eq_filterMap (ss : Bool) (rk : String) :
    ∀ (rest : List Segment) (events : List Event) (cur : List Segment),
      stableLoop ss rk events cur rest =
        events ++ (runsAux cur rest).filterMap (processRun ss rk) := by
  intro rest
  induction rest with
  | nil =>
    intro events cur
    simp [stableLoop, runsAux, List.filterMap_cons]
    cases processRun ss rk cur <;> simp
  | cons seg rest ih =>
    intro events cur
    match cur with
    | [] =>
      rw [stableLoop, runsAux]
      exact ih events [seg]
    | c :: cs =>
      rw [stableLoop, runsAux]
      by_cases h : contOK ((c :: cs).getLast (List.cons_ne_nil c cs)) seg
      · rw [if_pos h, if_pos h]
        exact ih events ((c :: cs) ++ [seg])
      · rw [if_neg h, if_neg h]
        rw [ih (events ++ (processRun ss rk (c :: cs)).toList) [seg]]
        rw [List.filterMap_cons]
        cases processRun ss rk (c :: cs) <;> simp

lemma stableNotes_eq_filterMap (ss : Bool) (rk : String) (segs : List Segment) :
    stableNotes ss rk segs = (runsOf segs).filterMap (processRun ss rk) := by
  match segs with
  | [] => simp [stableNotes, runsOf]
  | seg :: rest =>
    rw [stableNotes]
    simp only [List.isEmpty_cons, Bool.false_eq_true, if_false]
    rw [stableLoop, runsOf]
    exact stableLoop_eq_filterMap ss rk rest [] [seg]

lemma runsAux_flatten :
    ∀ (rest : List Segment) (cur : List Segment), (runsAux cur rest).flatten = cur ++ rest := by
  intro rest
  induction rest with
  | nil => intro cur; simp [runsAux]
  | cons seg rest ih =>
    intro cur
    match cur with
    | [] => rw [runsAux]; rw [ih [seg]]; simp
    | c :: cs =>
      rw [runsAux]
      by_cases h : contOK ((c :: cs).getLast (List.cons_ne_nil c cs)) seg
      · rw [if_pos h, ih ((c :: cs) ++ [seg])]; simp
      · rw [if_neg h]
        simp only [List.flatten_cons, ih [seg]]
        simp

lemma runsAux_ne_nil :
    ∀ (rest : List Segment) (cur : List Segment), cur ≠ [] →
      ∀ r ∈ runsAux cur rest, r ≠ [] := by
  intro rest
  induction rest with
  | nil =>
    intro cur hcur r hr
    simp [runsAux] at hr
    rw [hr]; exact hcur
  | cons seg rest ih =>
    intro cur hcur r hr
    match cur with
    | c :: cs =>
      rw [runsAux] at hr
      by_cases h : contOK ((c :: cs).getLast (List.cons_ne_nil c cs)) seg
      · rw [if_pos h] at hr
        exact ih ((c :: cs) ++ [seg]) (by simp) r hr
      · rw [if_neg h] at hr
        rcases List.mem_cons.mp hr with rfl | hr
        · exact List.cons_ne_nil c cs
        · exact ih [seg] (List.cons_ne_nil seg []) r hr

lemma runsAux_chain_within :
    ∀ (rest : List Segment) (cur : List Segment), cur.Chain' contOK →
      ∀ r ∈ runsAux cur rest, r.Chain' contOK := by
  intro rest
  induction rest with
  | nil =>
    intro cur hcur r hr
    simp [runsAux] at hr
    rw [hr]; exact hcur
  | cons seg rest ih =>
    intro cur hcur r hr
    match cur with
    | [] =>
      rw [runsAux] at hr
      exact ih [seg] (List.chain'_singleton seg) r hr
    | c :: cs =>
      rw [runsAux] at hr
      by_cases h : contOK ((c :: cs).getLast (List.cons_ne_nil c cs)) seg
      · rw [if_pos h] at hr
        refine ih ((c :: cs) ++ [seg]) ?_ r hr
        rw [List.chain'_append]
        refine ⟨hcur, List.chain'_singleton seg, ?_⟩
        intro x hx y hy
        simp only [List.head?_cons, Option.mem_def, Option.some.injEq] at hy
        rw [List.getLast?_eq_getLast _ (List.cons_ne_nil c cs)] at hx
        simp only [Option.mem_def, Option.some.injEq] at hx
        rw [← hx, ← hy] at *
        rw [← hy]
        rw [← hx]
        exact h
      · rw [if_neg h] at hr
        rcases List.mem_cons.mp hr with rfl | hr
        · exact hcur
        · exact ih [seg] (List.chain'_singleton seg) r hr

lemma runsAux_head :
    ∀ (rest : List Segment) (cur : List Segment), cur ≠ [] →
      ∀ r ∈ (runsAux cur rest).head?, r.head? = cur.head? := by
  intro rest
  induction rest with
  | nil =>
    intro cur hcur r hr
    simp [runsAux] at hr
    rw [hr]
  | cons seg rest ih =>
    intro cur hcur r hr
    match cur with
    | c :: cs =>
      rw [runsAux] at hr
      by_cases h : contOK ((c :: cs).getLast (List.cons_ne_nil c cs)) seg
      · rw [if_pos h] at hr
        have := ih ((c :: cs) ++ [seg]) (by simp) r hr
        rw [this]
        simp
      · rw [if_neg h] at hr
        simp only [List.head?_cons, Option.mem_def, Option.some.injEq] at hr
        rw [← hr]


lemma runsAux_boundary :
    ∀ (rest : List Segment) (cur : List Segment), cur ≠ [] →
      (runsAux cur rest).Chain' runBreak := by
  intro rest
  induction rest with
  | nil => intro cur hcur; simp [runsAux]
  | cons seg rest ih =>
    intro cur hcur
    match cur with
    | c :: cs =>
      rw [runsAux]
      by_cases h : contOK ((c :: cs).getLast (List.cons_ne_nil c cs)) seg
      · rw [if_pos h]
        exact ih ((c :: cs) ++ [seg]) (by simp)
      · rw [if_neg h]
        rw [List.chain'_cons']
        refine ⟨?_, ih [seg] (List.cons_ne_nil seg [])⟩
        intro r hr
        intro a ha b hb
        have hhead := runsAux_head rest [seg] (List.cons_ne_nil seg []) r hr
        rw [hhead] at hb
        simp only [List.head?_cons, Option.mem_def, Option.some.injEq] at hb
        rw [List.getLast?_eq_getLast _ (List.cons_ne_nil c cs)] at ha
        simp only [Option.mem_def, Option.some.injEq] at ha
        rw [← ha, ← hb]
        exact h

lemma processRun_some_facts (ss : Bool) (rk : String) (run : List Segment) (e : Event)
    (h : processRun ss rk run = some e) :
    ∃ hne : run ≠ [],
      e.startTime = (run.head hne).startTime ∧
      e.endTime = (run.getLast hne).endTime ∧
      e.endTime - e.startTime > 0.15 ∧
      e.avgFreq = ((run.map Segment.freq).sum) / ((run.length : ℚ)) ∧
      e.midi = getMidi e.avgFreq := by
  match run with
  | [] => simp [processRun] at h
  | s0 :: rest =>
    rw [processRun] at h
    by_cases hd : ((s0 :: rest).getLast (List.cons_ne_nil s0 rest)).endTime - s0.startTime > 0.15
    · rw [if_pos hd] at h
      obtain rfl := Option.some_inj.mp h
      refine ⟨List.cons_ne_nil s0 rest, ?_, ?_, ?_, ?_, ?_⟩ <;> simp [hd]
    · rw [if_neg hd] at h
      exact absurd h (by simp)

lemma processRun_none_of_short (ss : Bool) (rk : String) (run : List Segment)
    (hne : run ≠ [])
    (hshort : (run.getLast hne).endTime - (run.head hne).startTime ≤ 0.15) :
    processRun ss rk run = none := by
  match run with
  | s0 :: rest =>
    rw [processRun]
    rw [if_neg]
    simp only [List.head_cons] at hshort
    exact not_lt.mpr hshort

lemma list_exists_min (l : List ℚ) (hne : l ≠ []) : ∃ m ∈ l, ∀ x ∈ l, m ≤ x := by
  induction l with
  | nil => exact absurd rfl hne
  | cons a l ih =>
    match l with
    | [] => exact ⟨a, by simp, by simp⟩
    | b :: l2 =>
      obtain ⟨m, hm, hml⟩ := ih (List.cons_ne_nil b l2)
      by_cases h : a ≤ m
      · refine ⟨a, by simp, ?_⟩
        intro x hx
        rcases List.mem_cons.mp hx with rfl | hx
        · exact le_rfl
        · exact le_trans h (hml x hx)
      · refine ⟨m, List.mem_cons_of_mem a hm, ?_⟩
        intro x hx
        rcases List.mem_cons.mp hx with rfl | hx
        · linarith [not_le.mp h]
        · exact hml x hx

lemma list_exists_max (l : List ℚ) (hne : l ≠ []) : ∃ m ∈ l, ∀ x ∈ l, x ≤ m := by
  induction l with
  | nil => exact absurd rfl hne
  | cons a l ih =>
    match l with
    | [] => exact ⟨a, by simp, by simp⟩
    | b :: l2 =>
      obtain ⟨m, hm, hml⟩ := ih (List.cons_ne_nil b l2)
      by_cases h : m ≤ a
      · refine ⟨a, by simp, ?_⟩
        intro x hx
        rcases List.mem_cons.mp hx with rfl | hx
        · exact le_rfl
        · exact le_trans (hml x hx) h
      · refine ⟨m, List.mem_cons_of_mem a hm, ?_⟩
        intro x hx
        rcases List.mem_cons.mp hx with rfl | hx
        · linarith [not_le.mp h]
        · exact hml x hx

lemma mean_bounds (l : List ℚ) (hne : l ≠ []) (a b : ℚ)
    (ha : ∀ x ∈ l, a ≤ x) (hb : ∀ x ∈ l, x ≤ b) :
    a ≤ l.sum / (l.length : ℚ) ∧ l.sum / (l.length : ℚ) ≤ b := by
  have hlen : 0 < (l.length : ℚ) := by
    have : 0 < l.length := List.length_pos.mpr hne
    exact_mod_cast this
  have hsum_lo : (l.length : ℚ) * a ≤ l.sum := by
    have := List.card_nsmul_le_sum l a ha
    simpa [nsmul_eq_mul] using this
  have hsum_hi : l.sum ≤ (l.length : ℚ) * b := by
    have := List.sum_le_card_nsmul l b hb
    simpa [nsmul_eq_mul] using this
  constructor
  · rw [le_div_iff₀ hlen]; linarith
  · rw [div_le_iff₀ hlen]; linarith

lemma getMidi_mean_of_const (run : List Segment) (hne : run ≠ []) (M : ℤ)
    (hpos : ∀ s ∈ run, 0 < s.freq)
    (hM : ∀ s ∈ run, getMidi s.freq = M) :
    getMidi (((run.map Segment.freq).sum) / ((run.length : ℚ))) = M := by
  have hlne : run.map Segment.freq ≠ [] := by simpa using hne
  obtain ⟨mn, hmn, hmnle⟩ := list_exists_min (run.map Segment.freq) hlne
  obtain ⟨mx, hmx, hmxle⟩ := list_exists_max (run.map Segment.freq) hlne
  obtain ⟨smn, hsmn, rfl⟩ := List.mem_map.mp hmn
  obtain ⟨smx, hsmx, rfl⟩ := List.mem_map.mp hmx
  have hmn_pos : 0 < smn.freq := hpos smn hsmn
  have hbounds := mean_bounds (run.map Segment.freq) hlne smn.freq smx.freq hmnle hmxle
  have hlen : (run.map Segment.freq).length = run.length := List.length_map run Segment.freq
  rw [hlen] at hbounds
  have h1 : getMidi smn.freq ≤ getMidi (((run.map Segment.freq).sum) / ((run.length : ℚ))) :=
    getMidi_mono hmn_pos hbounds.1
  have h2 : getMidi (((run.map Segment.freq).sum) / ((run.length : ℚ))) ≤ getMidi smx.freq := by
    apply getMidi_mono ?_ hbounds.2
    calc (0 : ℚ) < smn.freq := hmn_pos
      _ ≤ ((run.map Segment.freq).sum) / ((run.length : ℚ)) := hbounds.1
  rw [hM smn hsmn] at h1
  rw [hM smx hsmx] at h2
  omega

lemma chain_midi_eq :
    ∀ (rest : List Segment) (s0 : Segment), (s0 :: rest).Chain' contOK →
      ∀ s ∈ s0 :: rest, getMidi s.freq = getMidi s0.freq := by
  intro rest
  induction rest with
  | nil => intro s0 _ s hs; simp at hs; rw [hs]
  | cons s1 rest ih =>
    intro s0 hchain s hs
    have hc01 : contOK s0 s1 := (List.chain'_cons.mp hchain).1
    have htail : (s1 :: rest).Chain' contOK := (List.chain'_cons.mp hchain).2
    rcases List.mem_cons.mp hs with rfl | hs
    · rfl
    · rw [ih s1 htail s hs]
      exact hc01.1

/-! ### Ordering of segments and events -/


lemma laid_cons_forall :
    ∀ (l : List Segment) (a : Segment), (∀ s ∈ a :: l, s.startTime ≤ s.endTime) →
      (a :: l).Chain' SegLE → ∀ b ∈ l, SegLE a b := by
  intro l
  induction l with
  | nil => intro a _ _ b hb; simp at hb
  | cons c l2 ih =>
    intro a hwf hchain b hb
    have hac : SegLE a c := (List.chain'_cons.mp hchain).1
    rcases List.mem_cons.mp hb with rfl | hb
    · exact hac
    · have hcb : SegLE c b :=
        ih c (fun s hs => hwf s (List.mem_cons_of_mem a hs)) (List.chain'_cons.mp hchain).2 b hb
      have hcwf : c.startTime ≤ c.endTime := hwf c (by simp)
      unfold SegLE at *
      linarith

lemma laid_pairwise : ∀ (segs : List Segment), Laid segs → segs.Pairwise SegLE := by
  intro segs
  induction segs with
  | nil => intro _; exact List.Pairwise.nil
  | cons a l ih =>
    intro h
    obtain ⟨hwf, hchain⟩ := h
    refine List.Pairwise.cons (laid_cons_forall l a hwf hchain) (ih ⟨?_, ?_⟩)
    · exact fun s hs => hwf s (List.mem_cons_of_mem a hs)
    · exact hchain.tail

lemma runsOf_flatten (segs : List Segment) : (runsOf segs).flatten = segs := by
  match segs with
  | [] => rfl
  | seg :: rest => rw [runsOf]; exact runsAux_flatten rest [seg]

lemma mem_of_mem_runsOf (segs : List Segment) (r : List Segment) (hr : r ∈ runsOf segs) :
    ∀ s ∈ r, s ∈ segs := by
  intro s hs
  rw [← runsOf_flatten segs]
  exact List.mem_flatten.mpr ⟨r, hr, hs⟩

lemma stableNotes_ordered (ss : Bool) (rk : String) (segs : List Segment) (h : Laid segs) :
    (stableNotes ss rk segs).Pairwise EvLE := by
  have hp : segs.Pairwise SegLE := laid_pairwise segs h
  rw [← runsOf_flatten segs] at hp
  obtain ⟨-, hcross⟩ := List.pairwise_flatten.mp hp
  rw [stableNotes_eq_filterMap, List.pairwise_filterMap]
  refine hcross.imp ?_
  intro r1 r2 hr e1 he1 e2 he2
  rw [Option.mem_def] at he1 he2
  obtain ⟨hne1, -, hend1, -, -, -⟩ := processRun_some_facts ss rk r1 e1 he1
  obtain ⟨hne2, hstart2, -, -, -, -⟩ := processRun_some_facts ss rk r2 e2 he2
  have hlast_mem : r1.getLast hne1 ∈ r1 := List.getLast_mem hne1
  have hhead_mem : r2.head hne2 ∈ r2 := List.head_mem hne2
  have := hr (r1.getLast hne1) hlast_mem (r2.head hne2) hhead_mem
  unfold EvLE
  rw [hend1, hstart2]
  exact this

/-! ### Grid structure of pipeline output -/

lemma synthList_chain (a b : Segment) (T : ℚ) (steps : ℕ) :
    ((List.range steps).map fun k => synthAt a b T steps (k + 1)).Chain' SegLE := by
  rw [List.chain'_iff_get]
  intro i hi
  simp only [List.length_map, List.length_range] at hi
  simp only [List.get_eq_getElem, List.getElem_map, List.getElem_range]
  unfold synthAt SegLE
  simp only
  apply le_of_eq
  push_cast
  ring

lemma synthList_mem (a b : Segment) (T : ℚ) (steps : ℕ) (s : Segment)
    (hs : s ∈ (List.range steps).map fun k => synthAt a b T steps (k + 1)) :
    ∃ j : ℕ, j < steps ∧ s.startTime = a.endTime + (j : ℚ) * T ∧
      s.endTime = a.endTime + ((j : ℚ) + 1) * T := by
  obtain ⟨k, hk, rfl⟩ := List.mem_map.mp hs
  rw [List.mem_range] at hk
  refine ⟨k, hk, ?_, ?_⟩ <;> (simp only [synthAt]; all_goals (push_cast; ring))

lemma synthList_head (a b : Segment) (T : ℚ) (steps : ℕ) (s : Segment)
    (hs : s ∈ ((List.range steps).map fun k => synthAt a b T steps (k + 1)).head?) :
    s.startTime = a.endTime := by
  match steps with
  | 0 => simp at hs
  | n + 1 =>
    rw [List.range_succ_eq_map] at hs
    simp only [List.map_cons, List.head?_cons, Option.mem_def, Option.some.injEq] at hs
    rw [← hs]
    simp only [synthAt]
    all_goals (push_cast; ring)

lemma synthList_last (a b : Segment) (T : ℚ) (steps : ℕ) (s : Segment)
    (hs : s ∈ ((List.range steps).map fun k => synthAt a b T steps (k + 1)).getLast?) :
    s.endTime = a.endTime + (steps : ℚ) * T := by
  rw [List.getLast?_eq_getElem?] at hs
  simp only [List.length_map, List.length_range] at hs
  match steps with
  | 0 => simp at hs
  | n + 1 =>
    have hlt : n < ((List.range (n + 1)).map fun k => synthAt a b T (n + 1) (k + 1)).length := by
      simp
    simp only [Nat.add_sub_cancel, List.getElem?_eq_getElem hlt, Option.mem_def,
      Option.some.injEq] at hs
    rw [← hs]
    simp only [List.getElem_map, List.getElem_range, synthAt]
    all_goals (push_cast; ring)


lemma fillGaps_head (T : ℚ) (b : Segment) (rest : List Segment) :
    (fillGaps T (b :: rest)).head? = some b := by
  match rest with
  | [] => rfl
  | c :: rest2 => rfl

lemma fillGaps_onGrid (T : ℚ) (hT : 0 < T) :
    ∀ (xs : List Segment), OnGrid T xs → OnGrid T (fillGaps T xs) := by
  intro xs
  induction xs with
  | nil => intro h; exact h
  | cons a tl ih =>
    match tl with
    | [] => intro h; exact h
    | b :: rest =>
      intro h
      obtain ⟨hchain, hgrid⟩ := h
      obtain ⟨ka, ha1, ha2⟩ := hgrid a (by simp)
      obtain ⟨kb, hb1, hb2⟩ := hgrid b (by simp)
      have hab : SegLE a b := (List.chain'_cons.mp hchain).1
      have hk : ka + 1 ≤ kb := by
        have : ((ka : ℚ) + 1) * T ≤ (kb : ℚ) * T := by rw [← ha2, ← hb1]; exact hab
        have h2 : ((ka : ℚ) + 1) ≤ (kb : ℚ) := le_of_mul_le_mul_right this hT
        exact_mod_cast h2
      have htail : OnGrid T (b :: rest) :=
        ⟨(List.chain'_cons.mp hchain).2, fun s hs => hgrid s (List.mem_cons_of_mem a hs)⟩
      have hih := ih htail
      obtain ⟨hfchain, hfgrid⟩ := hih
      rw [fillGaps]
      set d : ℕ := kb - (ka + 1) with hd
      have hgap : b.startTime - a.endTime = (d : ℚ) * T := by
        rw [hb1, ha2, hd]
        push_cast [Nat.cast_sub hk]
        ring
      by_cases hfill : 0 < b.startTime - a.endTime ∧ b.startTime - a.endTime < 1.5
      · -- some synthetic segments are inserted; they tile the gap exactly
        have hd1 : 1 ≤ d := by
          by_contra hcon
          have : d = 0 := by omega
          rw [this] at hgap
          simp at hgap
          rw [hgap] at hfill
          exact absurd hfill.1 (by norm_num)
        have hsteps : max 1 (round ((b.startTime - a.endTime) / T)).toNat = d := by
          rw [hgap]
          rw [mul_div_assoc, div_self (ne_of_gt hT)]
          rw [mul_one, round_natCast, Int.toNat_natCast]
          omega
        have hG : gapFill T a b =
            (List.range d).map fun k => synthAt a b T d (k + 1) := by
          rw [gapFill_of_gap T a b hfill.1 hfill.2, hsteps]
        rw [hG]
        have hGne : ((List.range d).map fun k => synthAt a b T d (k + 1)) ≠ [] := by
          simp only [ne_eq, List.map_eq_nil_iff, List.range_eq_nil]
          omega
        constructor
        · rw [List.chain'_cons']
          constructor
          · intro y hy
            rw [List.head?_append, List.head?_eq_head hGne] at hy
            simp only [Option.or, Option.mem_def, Option.some.injEq] at hy
            have hyh : y ∈ ((List.range d).map fun k => synthAt a b T d (k + 1)).head? := by
              rw [List.head?_eq_head hGne, Option.mem_def, hy]
            have := synthList_head a b T d y hyh
            unfold SegLE
            rw [this]
          · rw [List.chain'_append]
            refine ⟨synthList_chain a b T d, hfchain, ?_⟩
            intro x hx y hy
            rw [fillGaps_head T b rest] at hy
            simp only [Option.mem_def, Option.some.injEq] at hy
            have hxe := synthList_last a b T d x hx
            unfold SegLE
            rw [hxe, ← hy, hb1, ha2]
            apply le_of_eq
            push_cast [hd, Nat.cast_sub hk]
            ring
        · intro s hs
          rcases List.mem_cons.mp hs with rfl | hs
          · exact ⟨ka, ha1, ha2⟩
          rcases List.mem_append.mp hs with hsG | hsF
          · obtain ⟨j, hj, h1, h2⟩ := synthList_mem a b T d s hsG
            refine ⟨ka + 1 + j, ?_, ?_⟩
            · rw [h1, ha2]; push_cast; ring
            · rw [h2, ha2]; push_cast; ring
          · exact hfgrid s hsF
      · rw [gapFill_of_no_gap T a b hfill]
        simp only [List.nil_append]
        constructor
        · rw [List.chain'_cons']
          refine ⟨?_, hfchain⟩
          intro y hy
          rw [fillGaps_head T b rest] at hy
          simp only [Option.mem_def, Option.some.injEq] at hy
          rw [← hy] at *
          rw [← hy]
          exact hab
        · intro s hs
          rcases List.mem_cons.mp hs with rfl | hs
          · exact ⟨ka, ha1, ha2⟩
          · exact hfgrid s hs

lemma OnGrid.toLaid (T : ℚ) (hT : 0 < T) (segs : List Segment) (h : OnGrid T segs) :
    Laid segs := by
  refine ⟨?_, h.1⟩
  intro s hs
  obtain ⟨k, h1, h2⟩ := h.2 s hs
  rw [h1, h2]
  nlinarith [Nat.cast_nonneg (α := ℚ) k]

lemma buildSegments_onGrid (gmin gmax T : ℚ) (hT : 0 < T) (frames : List (Option ℚ)) :
    OnGrid T (buildSegments gmin gmax T 0 frames) := by
  refine ⟨(buildSegments_grid gmin gmax T hT frames 0).1, ?_⟩
  intro s hs
  obtain ⟨k, -, h1, h2⟩ := (buildSegments_grid gmin gmax T hT frames 0).2 s hs
  exact ⟨k, h1, h2⟩

lemma medianSmooth_time (xs : List Segment) (i : ℕ) (hi2 : i < (medianSmooth xs).length) :
    ∃ hi : i < xs.length,
      ((medianSmooth xs).get ⟨i, hi2⟩).startTime = (xs.get ⟨i, hi⟩).startTime ∧
      ((medianSmooth xs).get ⟨i, hi2⟩).endTime = (xs.get ⟨i, hi⟩).endTime := by
  have hi : i < xs.length := by rw [← medianSmooth_length xs]; exact hi2
  refine ⟨hi, ?_, ?_⟩ <;> rw [medianSmooth_get xs i hi hi2]

lemma medianSmooth_onGrid (T : ℚ) (xs : List Segment) (h : OnGrid T xs) :
    OnGrid T (medianSmooth xs) := by
  obtain ⟨hchain, hgrid⟩ := h
  constructor
  · rw [List.chain'_iff_get] at hchain ⊢
    intro i hi
    have hlen := medianSmooth_length xs
    have hi2a : i < (medianSmooth xs).length := by omega
    have hi2b : i + 1 < (medianSmooth xs).length := by omega
    obtain ⟨hia, hs1, he1⟩ := medianSmooth_time xs i hi2a
    obtain ⟨hib, hs2, he2⟩ := medianSmooth_time xs (i + 1) hi2b
    unfold SegLE
    rw [he1, hs2]
    exact hchain i (by omega)
  · intro s hs
    rw [List.mem_iff_get] at hs
    obtain ⟨⟨i, hi2⟩, rfl⟩ := hs
    obtain ⟨hi, hs1, he1⟩ := medianSmooth_time xs i hi2
    obtain ⟨k, h1, h2⟩ := hgrid (xs.get ⟨i, hi⟩) (List.get_mem xs i hi)
    exact ⟨k, by rw [hs1, h1], by rw [he1, h2]⟩

lemma fileHop_div_pos (sr : ℚ) (hsr : 0 < sr) : 0 < (fileHopSize : ℚ) / sr :=
  div_pos (by norm_num [fileHopSize]) hsr

lemma liveHop_div_pos (sr : ℚ) (hsr : 0 < sr) : 0 < (liveHopSize : ℚ) / sr :=
  div_pos (by norm_num [liveHopSize]) hsr

lemma fileSegments_onGrid (pitches : List (Option ℚ)) (sr : ℚ) (hsr : 0 < sr) :
    OnGrid ((fileHopSize : ℚ) / sr) (fileSegments pitches sr) :=
  buildSegments_onGrid 60 1100 _ (fileHop_div_pos sr hsr) pitches

lemma liveFilled_onGrid (pitches : List (Option ℚ)) (sr : ℚ) (hsr : 0 < sr) :
    OnGrid ((liveHopSize : ℚ) / sr) (liveFilledSegments pitches sr) := by
  unfold liveFilledSegments
  apply fillGaps_onGrid _ (liveHop_div_pos sr hsr)
  apply medianSmooth_onGrid
  exact buildSegments_onGrid 50 1200 _ (liveHop_div_pos sr hsr) pitches

/-! ### Remaining helper lemmas -/

lemma runsOf_ne_nil (segs : List Segment) : ∀ r ∈ runsOf segs, r ≠ [] := by
  match segs with
  | [] => intro r hr; simp [runsOf] at hr
  | seg :: rest =>
    rw [runsOf]
    exact runsAux_ne_nil rest [seg] (List.cons_ne_nil seg [])

lemma runsOf_chain (segs : List Segment) : ∀ r ∈ runsOf segs, r.Chain' contOK := by
  match segs with
  | [] => intro r hr; simp [runsOf] at hr
  | seg :: rest =>
    rw [runsOf]
    exact runsAux_chain_within rest [seg] (List.chain'_singleton seg)

lemma runsOf_boundary (segs : List Segment) : (runsOf segs).Chain' runBreak := by
  match segs with
  | [] => simp [runsOf]
  | seg :: rest =>
    rw [runsOf]
    exact runsAux_boundary rest [seg] (List.cons_ne_nil seg [])

lemma onGrid_start_strict (T : ℚ) (hT : 0 < T) (l : List Segment) (h : OnGrid T l) :
    l.Pairwise (fun a b => a.startTime < b.startTime) := by
  have hwf : ∀ s ∈ l, s.startTime < s.endTime := by
    intro s hs
    obtain ⟨k, h1, h2⟩ := h.2 s hs
    rw [h1, h2]
    nlinarith [Nat.cast_nonneg (α := ℚ) k]
  have hp : l.Pairwise SegLE := laid_pairwise l (OnGrid.toLaid T hT l h)
  have : l.Pairwise (fun a b => SegLE a b ∧ a ∈ l ∧ b ∈ l) := by
    rw [List.pairwise_iff_forall_sublist] at hp ⊢
    intro a b hsub
    refine ⟨hp hsub, ?_, ?_⟩
    · exact hsub.subset (by simp)
    · exact hsub.subset (by simp)
  refine this.imp ?_
  rintro a b ⟨hle, ha, hb⟩
  calc a.startTime < a.endTime := hwf a ha
    _ ≤ b.startTime := hle

lemma fdiv_eq_floor_div (a : ℤ) (b : ℕ) (hb : 0 < b) : a.fdiv b = ⌊(a : ℚ) / (b : ℚ)⌋ := by
  rw [Int.fdiv_eq_ediv a (by exact_mod_cast Nat.zero_le b)]
  have hb' : (0 : ℚ) < (b : ℚ) := by exact_mod_cast hb
  have hbz : (b : ℤ) ≠ 0 := by exact_mod_cast Nat.pos_iff_ne_zero.mp hb
  symm
  rw [Int.floor_eq_iff]
  constructor
  · rw [le_div_iff₀ hb']
    have h1 : (a / (b : ℤ)) * (b : ℤ) ≤ a := Int.ediv_mul_le a hbz
    calc ((a / (b : ℤ) : ℤ) : ℚ) * (b : ℚ) = (((a / (b : ℤ)) * (b : ℤ) : ℤ) : ℚ) := by push_cast; ring
      _ ≤ (a : ℚ) := by exact_mod_cast h1
  · rw [div_lt_iff₀ hb']
    have h2 : a < (a / (b : ℤ) + 1) * (b : ℤ) :=
      Int.lt_ediv_add_one_mul_self a (by exact_mod_cast hb)
    calc (a : ℚ) < (((a / (b : ℤ) + 1) * (b : ℤ) : ℤ) : ℚ) := by exact_mod_cast h2
      _ = (((a / (b : ℤ) : ℤ) : ℚ) + 1) * (b : ℚ) := by push_cast; ring

lemma fdiv_twelve_eq_floor (a : ℤ) : a.fdiv 12 = ⌊(a : ℚ) / 12⌋ := by
  have h := fdiv_eq_floor_div a 12 (by norm_num)
  have h12 : ((12 : ℕ) : ℤ) = (12 : ℤ) := by norm_num
  have h12q : ((12 : ℕ) : ℚ) = (12 : ℚ) := by norm_num
  rw [h12, h12q] at h
  exact h

/-- `getMidi` at 50 Hz (the lowest frequency either noise gate admits). -/
lemma getMidi_50 : getMidi 50 = 31 := by
  apply getMidi_eval 50 (by norm_num) 31 <;> norm_num

lemma NOTES_indexOf_getD (n : ℕ) (hn : n < 12) :
    NOTES.indexOf (NOTES.getD n emptyStr) = n := by
  interval_cases n <;> rfl

lemma mem_NOTES_ne_empty (rk : String) (hrk : rk ∈ NOTES) : rk ≠ emptyStr := by
  simp only [NOTES, List.cons_append, List.nil_append, List.mem_cons, List.not_mem_nil,
    or_false] at hrk
  rcases hrk with rfl | rfl | rfl | rfl | rfl | rfl | rfl | rfl | rfl | rfl | rfl | rfl <;>
    simp [emptyStr]

lemma mem_NOTES_contains (rk : String) (hrk : rk ∈ NOTES) : NOTES.contains rk = true := by
  simpa using hrk

lemma toChunks_go_length_ge {α : Type} (n : ℕ) :
    ∀ (xs : List α) (acc₁ : Array α) (acc₂ : Array (List α)),
      acc₂.size + 1 ≤ (List.toChunks.go n xs acc₁ acc₂).length := by
  intro xs
  induction xs with
  | nil =>
    intro acc₁ acc₂
    simp [List.toChunks.go]
  | cons x xs ih =>
    intro acc₁ acc₂
    rw [List.toChunks.go]
    by_cases h : acc₁.size == n
    · rw [if_pos h]
      have := ih ((Array.mkEmpty n).push x) (acc₂.push acc₁.toList)
      have hsz : (acc₂.push acc₁.toList).size = acc₂.size + 1 := Array.size_push acc₂ acc₁.toList
      omega
    · rw [if_neg h]
      exact ih (acc₁.push x) acc₂

lemma toChunks_length_ge {α : Type} (x : α) (xs : List α) :
    1 ≤ (List.toChunks 2048 (x :: xs)).length := by
  have h : List.toChunks 2048 (x :: xs) =
      List.toChunks.go 2048 xs ((Array.mkEmpty 2048).push x) (Array.mkEmpty 2048) := rfl
  rw [h]
  have := toChunks_go_length_ge 2048 xs ((Array.mkEmpty 2048).push x) (Array.mkEmpty 2048)
  omega

/-! ### The claims -/

lemma buildSegments_mem_clean (gmin gmax T : ℚ) (pitches : List (Option ℚ)) (seg : Segment) :
    seg ∈ buildSegments gmin gmax T 0 pitches ↔
      ∃ (j : ℕ) (f : ℚ), pitches[j]? = some (some f) ∧ f ≠ 0 ∧ gmin ≤ f ∧ f ≤ gmax ∧
        seg = ⟨(j : ℚ) * T, ((j : ℚ) + 1) * T, f⟩ := by
  rw [buildSegments_mem gmin gmax T pitches 0 seg]
  constructor
  · rintro ⟨j, f, hj, hf, rfl⟩
    push_neg at hf
    refine ⟨j, f, hj, hf.1, hf.2.1, hf.2.2, ?_⟩
    norm_num
  · rintro ⟨j, f, hj, h1, h2, h3, rfl⟩
    refine ⟨j, f, hj, ?_, ?_⟩
    · push_neg
      exact ⟨h1, h2, h3⟩
    · norm_num

/-- Claim C3: SegmentBuilder noise gate.  A frame whose frequency is `none`
(or falsy `0`) or outside the gate range — `60..1100` Hz for the file
pipeline, `50..1200` Hz for the live pipeline — produces no segment, while
every other frame at index `i` produces exactly one segment spanning
`[i * framePeriod, (i+1) * framePeriod)` carrying the estimate unchanged,
where `framePeriod = hopSize / sampleRate`.  ("Exactly one" is witnessed by
the membership characterisation, the count equation, and the strictly
increasing start times.) -/
theorem claim_C3_noise_gate (pitches : List (Option ℚ)) (sr : ℚ) (hsr : 0 < sr) :
    (∀ seg : Segment, seg ∈ fileSegments pitches sr ↔
      ∃ (j : ℕ) (f : ℚ), pitches[j]? = some (some f) ∧ f ≠ 0 ∧ 60 ≤ f ∧ f ≤ 1100 ∧
        seg = ⟨(j : ℚ) * ((fileHopSize : ℚ) / sr), ((j : ℚ) + 1) * ((fileHopSize : ℚ) / sr), f⟩) ∧
    (fileSegments pitches sr).length = pitches.countP (framePasses 60 1100) ∧
    (fileSegments pitches sr).Pairwise (fun a b => a.startTime < b.startTime) ∧
    (∀ seg : Segment, seg ∈ liveRawSegments pitches sr ↔
      ∃ (j : ℕ) (f : ℚ), pitches[j]? = some (some f) ∧ f ≠ 0 ∧ 50 ≤ f ∧ f ≤ 1200 ∧
        seg = ⟨(j : ℚ) * ((liveHopSize : ℚ) / sr), ((j : ℚ) + 1) * ((liveHopSize : ℚ) / sr), f⟩) ∧
    (liveRawSegments pitches sr).length = pitches.countP (framePasses 50 1200) ∧
    (liveRawSegments pitches sr).Pairwise (fun a b => a.startTime < b.startTime) := by
  refine ⟨?_, ?_, ?_, ?_, ?_, ?_⟩
  · intro seg
    exact buildSegments_mem_clean 60 1100 _ pitches seg
  · exact buildSegments_length 60 1100 _ pitches 0
  · exact onGrid_start_strict _ (fileHop_div_pos sr hsr) _ (fileSegments_onGrid pitches sr hsr)
  · intro seg
    exact buildSegments_mem_clean 50 1200 _ pitches seg
  · exact buildSegments_length 50 1200 _ pitches 0
  · exact onGrid_start_strict _ (liveHop_div_pos sr hsr) _
      (buildSegments_onGrid 50 1200 _ (liveHop_div_pos sr hsr) pitches)

/-- Claim C5: MedianSmoother.  The output has the same segments in the same
order, each segment's frequency replaced by the median of the raw neighbour
frequencies (self at the two ends, neighbours always from the raw input),
start and end times unchanged; `median3` really is the median (middle = sum
minus min minus max); and the isolated spike `[220, 880, 225]` has its middle
value replaced by `225`. -/
theorem claim_C5_median_smoother (xs : List Segment) :
    (medianSmooth xs).length = xs.length ∧
    (∀ (i : ℕ) (hi : i < xs.length) (hi2 : i < (medianSmooth xs).length),
      ((medianSmooth xs).get ⟨i, hi2⟩).startTime = (xs.get ⟨i, hi⟩).startTime ∧
      ((medianSmooth xs).get ⟨i, hi2⟩).endTime = (xs.get ⟨i, hi⟩).endTime ∧
      ((medianSmooth xs).get ⟨i, hi2⟩).freq =
        median3
          (if 0 < i then (xs.get ⟨i - 1, by omega⟩).freq else (xs.get ⟨i, hi⟩).freq)
          ((xs.get ⟨i, hi⟩).freq)
          (if h : i + 1 < xs.length then (xs.get ⟨i + 1, h⟩).freq
            else (xs.get ⟨i, hi⟩).freq)) ∧
    (∀ a b c : ℚ, median3 a b c = a + b + c - min (min a b) c - max (max a b) c) ∧
    (medianSmooth [⟨0, 1, 220⟩, ⟨1, 2, 880⟩, ⟨2, 3, 225⟩]).map Segment.freq = [220, 225, 225] := by
  refine ⟨medianSmooth_length xs, ?_, median3_eq, ?_⟩
  · intro i hi hi2
    have hget := medianSmooth_get xs i hi hi2
    refine ⟨by rw [hget], by rw [hget], ?_⟩
    rw [hget]
    show median3
        (if 0 < i then (xs.getD (i - 1) (xs.get ⟨i, hi⟩)).freq else (xs.get ⟨i, hi⟩).freq)
        ((xs.get ⟨i, hi⟩).freq)
        (if i < xs.length - 1 then (xs.getD (i + 1) (xs.get ⟨i, hi⟩)).freq
          else (xs.get ⟨i, hi⟩).freq) = _
    congr 1
    · by_cases h0 : 0 < i
      · rw [if_pos h0, if_pos h0, List.getD_eq_getElem xs _ (by omega), List.get_eq_getElem]
      · rw [if_neg h0, if_neg h0]
    · by_cases hl : i + 1 < xs.length
      · have hl' : i < xs.length - 1 := by omega
        rw [if_pos hl', dif_pos hl, List.getD_eq_getElem xs _ (by omega), List.get_eq_getElem]
      · have hl' : ¬ i < xs.length - 1 := by omega
        rw [if_neg hl', dif_neg hl]
  · rfl

/-- Claim C6: GapInterpolator.  Between each adjacent pair, synthetic segments
are inserted iff `0 < gap < 1.5` s; exactly `steps = max 1 (round (gap/T))`
of them; the `(k+1)`-st (1-based `s = k+1`) spans
`[cur.endTime + k*T, cur.endTime + (k+1)*T]` and carries
`cur.freq * (1-t) + next.freq * t` with `t = (k+1)/(steps+1)`; a synthetic
segment at fraction `t = 1/2` carries exactly the arithmetic mean. -/
theorem claim_C6_gap_interpolation (T : ℚ) (a b : Segment) (rest : List Segment) :
    (fillGaps T (a :: b :: rest) = a :: (gapFill T a b ++ fillGaps T (b :: rest))) ∧
    (¬(0 < b.startTime - a.endTime ∧ b.startTime - a.endTime < 1.5) → gapFill T a b = []) ∧
    (∀ (h1 : 0 < b.startTime - a.endTime) (h2 : b.startTime - a.endTime < 1.5),
      (gapFill T a b).length = max 1 (round ((b.startTime - a.endTime) / T)).toNat ∧
      ∀ (k : ℕ) (hk : k < (gapFill T a b).length),
        (gapFill T a b).get ⟨k, hk⟩ =
          { startTime := a.endTime + (k : ℚ) * T
            endTime := a.endTime + ((k : ℚ) + 1) * T
            freq := a.freq *
                (1 - ((k : ℚ) + 1) /
                  ((max 1 (round ((b.startTime - a.endTime) / T)).toNat : ℕ) + 1 : ℚ)) +
              b.freq * (((k : ℚ) + 1) /
                  ((max 1 (round ((b.startTime - a.endTime) / T)).toNat : ℕ) + 1 : ℚ)) }) ∧
    (∀ steps s : ℕ, 2 * s = steps + 1 →
      (synthAt a b T steps s).freq = (a.freq + b.freq) / 2) := by
  refine ⟨rfl, gapFill_of_no_gap T a b, ?_, synthAt_freq_mid a b T⟩
  intro h1 h2
  rw [gapFill_of_gap T a b h1 h2]
  constructor
  · simp
  · intro k hk
    simp only [List.get_eq_getElem, List.getElem_map, List.getElem_range, synthAt]
    refine Segment.mk.injEq _ _ _ _ _ _ ▸ ?_
    refine ⟨?_, ?_, ?_⟩ <;> push_cast <;> ring

/-- Claim C1: StableNoteAggregator run continuity.  The continuation
condition is exactly "equal MIDI numbers (`round (69 + 12*log2 (f/440))`)
and gap `< 0.1` s"; the aggregator partitions the input into runs in order
(`flatten` recovers the input, so the final open run is closed out at
sequence end); every run is non-empty and internally satisfies the
continuation condition between adjacent segments; adjacent runs break the
condition at their boundary; and the emitted events are exactly the closed
runs passed through `processRun`. -/
theorem claim_C1_run_continuity (ss : Bool) (rk : String) (segs : List Segment) :
    (∀ a b : Segment, 0 < a.freq → 0 < b.freq →
      (contOK a b ↔
        round (69 + 12 * Real.logb 2 ((b.freq : ℝ) / 440)) =
            round (69 + 12 * Real.logb 2 ((a.freq : ℝ) / 440)) ∧
          b.startTime - a.endTime < 0.1)) ∧
    stableNotes ss rk segs = (runsOf segs).filterMap (processRun ss rk) ∧
    (runsOf segs).flatten = segs ∧
    (∀ r ∈ runsOf segs, r ≠ []) ∧
    (∀ r ∈ runsOf segs, r.Chain' contOK) ∧
    (runsOf segs).Chain' runBreak := by
  refine ⟨?_, stableNotes_eq_filterMap ss rk segs, runsOf_flatten segs, runsOf_ne_nil segs,
    runsOf_chain segs, runsOf_boundary segs⟩
  intro a b ha hb
  unfold contOK
  rw [getMidi_eq_round_logb a.freq ha, getMidi_eq_round_logb b.freq hb]

/-- Claim C2: Minimum-duration filter.  Every emitted StableNoteEvent spans
strictly more than `0.15` s, and a run whose total span is at most `0.15` s
produces no event at all. -/
theorem claim_C2_min_duration (ss : Bool) (rk : String) (segs : List Segment) :
    (∀ e ∈ stableNotes ss rk segs, 0.15 < e.endTime - e.startTime) ∧
    (∀ (run : List Segment) (hne : run ≠ []),
      (run.getLast hne).endTime - (run.head hne).startTime ≤ 0.15 →
      processRun ss rk run = none) := by
  constructor
  · intro e he
    rw [stableNotes_eq_filterMap ss rk segs] at he
    obtain ⟨run, -, hsome⟩ := List.mem_filterMap.mp he
    obtain ⟨hne, -, -, hdur, -⟩ := processRun_some_facts ss rk run e hsome
    exact hdur
  · exact processRun_none_of_short ss rk

/-- Claim C10 (implicit): every StableNoteEvent's MIDI number, computed by
rounding from the run's mean frequency, equals the MIDI number shared by all
of the run's segments: run continuity forces a single MIDI number per run,
and since `getMidi` is monotone the mean of the run's frequencies rounds to
the same number. -/
theorem claim_C10_midi_stable (ss : Bool) (rk : String) (segs : List Segment)
    (hpos : ∀ s ∈ segs, 0 < s.freq) :
    ∀ e ∈ stableNotes ss rk segs, ∃ run ∈ runsOf segs,
      processRun ss rk run = some e ∧ ∀ s ∈ run, getMidi s.freq = e.midi := by
  intro e he
  rw [stableNotes_eq_filterMap ss rk segs] at he
  obtain ⟨run, hrun, hsome⟩ := List.mem_filterMap.mp he
  refine ⟨run, hrun, hsome, ?_⟩
  obtain ⟨hne, -, -, -, havg, hmidi⟩ := processRun_some_facts ss rk run e hsome
  have hchain : run.Chain' contOK := runsOf_chain segs run hrun
  have hposrun : ∀ s ∈ run, 0 < s.freq := fun s hs =>
    hpos s (mem_of_mem_runsOf segs run hrun s hs)
  match run, hne with
  | s0 :: rest, _ =>
    have hall : ∀ s ∈ s0 :: rest, getMidi s.freq = getMidi s0.freq :=
      chain_midi_eq rest s0 hchain
    have hmean : getMidi ((((s0 :: rest).map Segment.freq).sum) / (((s0 :: rest).length : ℚ))) =
        getMidi s0.freq :=
      getMidi_mean_of_const (s0 :: rest) (List.cons_ne_nil s0 rest) (getMidi s0.freq)
        hposrun hall
    intro s hs
    rw [hall s hs, hmidi, havg, hmean]

lemma mean_lower (l : List ℚ) (hne : l ≠ []) (a : ℚ) (ha : ∀ x ∈ l, a ≤ x) :
    a ≤ l.sum / (l.length : ℚ) := by
  have hlen : 0 < (l.length : ℚ) := by
    have : 0 < l.length := List.length_pos.mpr hne
    exact_mod_cast this
  have hsum_lo : (l.length : ℚ) * a ≤ l.sum := by
    have := List.card_nsmul_le_sum l a ha
    simpa [nsmul_eq_mul] using this
  rw [le_div_iff₀ hlen]
  linarith

/-- Claim C4: fields of an emitted event.  Closing a qualifying run (span
over `0.15` s, gated frequencies) emits an event whose `avgFreq` is the
unweighted mean of the run's frequencies, whose MIDI number is
`round (69 + 12*log2 (avgFreq/440))`, and whose full note name is the
chromatic table at `midi % 12` concatenated with `⌊midi/12⌋ - 1`. -/
theorem claim_C4_event_fields (ss : Bool) (rk : String) (run : List Segment)
    (hne : run ≠ [])
    (hfreq : ∀ s ∈ run, 50 ≤ s.freq)
    (hdur : (run.getLast hne).endTime - (run.head hne).startTime > 0.15) :
    ∃ e, processRun ss rk run = some e ∧
      e.avgFreq = ((run.map Segment.freq).sum) / ((run.length : ℚ)) ∧
      e.midi = round (69 + 12 * Real.logb 2 ((e.avgFreq : ℝ) / 440)) ∧
      0 ≤ e.midi ∧
      e.fullNote = NOTES.getD ((e.midi % 12).toNat) emptyStr ++
        toString (⌊(e.midi : ℚ) / 12⌋ - 1) := by
  have hmapfreq : ∀ x ∈ run.map Segment.freq, (50 : ℚ) ≤ x := by
    intro x hx
    obtain ⟨s, hs, rfl⟩ := List.mem_map.mp hx
    exact hfreq s hs
  have hlne : run.map Segment.freq ≠ [] := by simpa using hne
  have havg_ge : 50 ≤ ((run.map Segment.freq).sum) / ((run.length : ℚ)) := by
    have := mean_lower (run.map Segment.freq) hlne 50 hmapfreq
    rwa [List.length_map] at this
  have hpos : (0 : ℚ) < ((run.map Segment.freq).sum) / ((run.length : ℚ)) :=
    lt_of_lt_of_le (by norm_num) havg_ge
  have h31 : (31 : ℤ) ≤ getMidi (((run.map Segment.freq).sum) / ((run.length : ℚ))) := by
    rw [← getMidi_50]
    exact getMidi_mono (by norm_num) havg_ge
  match run, hne, hfreq, hdur, hmapfreq, hlne, havg_ge, hpos, h31 with
  | s0 :: rest, _, hfreq, hdur, hmapfreq, hlne, havg_ge, hpos, h31 =>
    rw [processRun]
    rw [if_pos (by simpa using hdur)]
    refine ⟨_, rfl, rfl, ?_, ?_, ?_⟩
    · exact getMidi_eq_round_logb _ hpos
    · show (0 : ℤ) ≤ getMidi _
      omega
    · show fullNoteOf _ = _
      unfold fullNoteOf
      rw [fdiv_twelve_eq_floor]
      rfl


/-- Claim C7: scale-degree labeling.  With a root key from the 12-entry
chromatic table the label is `SARGAM_MAPPING` at
`(midi % 12 - rootIndex + 12) mod 12`, depending only on the pitch class and
the root key (never the octave); for root C the pitch classes of C, D and G
map to Sa, Re and Pa, for root D the pitch class of D maps to Sa; and a root
key outside the table falls back to the absolute note name. -/
theorem claim_C7_scale_degree (midi m₁ m₂ : ℤ) (rk : String) :
    (0 ≤ midi → rk ∈ NOTES →
      noteLabelOf true rk midi =
        SARGAM_MAPPING.getD (((midi % 12 - (NOTES.indexOf rk : ℤ) + 12).emod 12).toNat)
          emptyStr) ∧
    (0 ≤ m₁ → 0 ≤ m₂ → rk ∈ NOTES → m₁ % 12 = m₂ % 12 →
      noteLabelOf true rk m₁ = noteLabelOf true rk m₂) ∧
    (noteLabelOf true keyC 60 = strSa ∧ noteLabelOf true keyC 62 = strRe ∧
      noteLabelOf true keyC 67 = strPa ∧ noteLabelOf true keyD 62 = strSa) ∧
    (rk ∉ NOTES → noteLabelOf true rk midi = fullNoteOf midi) := by
  have hbase : ∀ n : ℤ, 0 ≤ n → rk ∈ NOTES →
      noteLabelOf true rk n =
        SARGAM_MAPPING.getD (((n % 12 - (NOTES.indexOf rk : ℤ) + 12).emod 12).toNat)
          emptyStr := by
    intro n hn hrk
    unfold noteLabelOf
    rw [if_pos ⟨rfl, mem_NOTES_ne_empty rk hrk⟩, if_pos (mem_NOTES_contains rk hrk)]
    have hmod : (0 : ℤ) ≤ n.emod 12 := Int.emod_nonneg n (by norm_num)
    have hmod12 : n.emod 12 < 12 := Int.emod_lt_of_pos n (by norm_num)
    have htn : (n.emod 12).toNat < 12 := by omega
    rw [NOTES_indexOf_getD (n.emod 12).toNat htn, Int.toNat_of_nonneg hmod]
    rfl
  refine ⟨hbase midi, ?_, ⟨rfl, rfl, rfl, rfl⟩, ?_⟩
  · intro h1 h2 hrk heq
    rw [hbase m₁ h1 hrk, hbase m₂ h2 hrk, heq]
  · intro hrk
    unfold noteLabelOf
    by_cases hempty : rk = emptyStr
    · rw [if_neg]
      simp [hempty]
    · rw [if_pos ⟨rfl, hempty⟩, if_neg]
      intro hcon
      exact hrk (by simpa using hcon)

/-- Claim C8 (amended): the produced event list is time-ordered with
`e.endTime ≤ e'.startTime` for events in list order and every event has a
positive span, so closed intervals of distinct events can share at most a
boundary instant; both pipeline variants feed the aggregator well-laid-out
segment lists.  (The original claim's "at most one match" fails exactly at a
shared boundary instant; see the counterexample.) -/
theorem claim_C8_amended (ss : Bool) (rk : String) (segs : List Segment) (h : Laid segs) :
    (stableNotes ss rk segs).Pairwise EvLE ∧
    (∀ e ∈ stableNotes ss rk segs, e.startTime < e.endTime) ∧
    (∀ (pitches : List (Option ℚ)) (sr : ℚ), 0 < sr →
      Laid (fileSegments pitches sr) ∧ Laid (liveFilledSegments pitches sr)) := by
  refine ⟨stableNotes_ordered ss rk segs h, ?_, ?_⟩
  · intro e he
    rw [stableNotes_eq_filterMap ss rk segs] at he
    obtain ⟨run, -, hsome⟩ := List.mem_filterMap.mp he
    obtain ⟨-, -, -, hdur, -⟩ := processRun_some_facts ss rk run e hsome
    have h15 : (0 : ℚ) < 0.15 := by norm_num
    linarith
  · intro pitches sr hsr
    constructor
    · exact OnGrid.toLaid _ (fileHop_div_pos sr hsr) _ (fileSegments_onGrid pitches sr hsr)
    · exact OnGrid.toLaid _ (liveHop_div_pos sr hsr) _ (liveFilled_onGrid pitches sr hsr)

/-- Claim C8 (counterexample to the claim as stated): feeding the file
pipeline two frames at 440 Hz and 880 Hz with sample rate 10240 (so one frame
lasts 0.2 s > the 0.15 s minimum) produces two StableNoteEvents whose closed
intervals share the boundary instant `1/5`; the query time `1/5` lies inside
BOTH intervals, so "the lookup ... is well-defined (at most one match)" is
false for closed `[startTime, endTime]` intervals. -/
theorem claim_C8_counterexample :
    (stableNotes false emptyStr (fileSegments [some 440, some 880] 10240)).length = 2 ∧
    (∀ e ∈ stableNotes false emptyStr (fileSegments [some 440, some 880] 10240),
      e.startTime ≤ 1/5 ∧ 1/5 ≤ e.endTime) ∧
    ((stableNotes false emptyStr (fileSegments [some 440, some 880] 10240)).map Event.midi
      = [69, 81]) := by
  have hseg : fileSegments [some 440, some 880] 10240 =
      [⟨0, 1/5, 440⟩, ⟨1/5, 2/5, 880⟩] := by
    norm_num [fileSegments, buildSegments, fileHopSize]
  have hc : ¬ contOK ⟨0, 1/5, 440⟩ ⟨1/5, 2/5, 880⟩ := by
    simp only [contOK, getMidi_440, getMidi_880]
    intro hcon
    omega
  have hp1 : processRun false emptyStr [⟨0, 1/5, (440 : ℚ)⟩] =
      some ⟨0, 1/5, 440, 69, fullNoteOf 69, fullNoteOf 69, fullNoteOf 69⟩ := by
    rw [processRun, if_pos (by norm_num)]
    norm_num [getMidi_440, noteLabelOf]
  have hp2 : processRun false emptyStr [⟨1/5, 2/5, (880 : ℚ)⟩] =
      some ⟨1/5, 2/5, 880, 81, fullNoteOf 81, fullNoteOf 81, fullNoteOf 81⟩ := by
    rw [processRun, if_pos (by norm_num)]
    norm_num [getMidi_880, noteLabelOf]
  have hev : stableNotes false emptyStr (fileSegments [some 440, some 880] 10240) =
      [⟨0, 1/5, 440, 69, fullNoteOf 69, fullNoteOf 69, fullNoteOf 69⟩,
       ⟨1/5, 2/5, 880, 81, fullNoteOf 81, fullNoteOf 81, fullNoteOf 81⟩] := by
    rw [hseg]
    simp only [stableNotes, List.isEmpty_cons, Bool.false_eq_true, if_false, stableLoop,
      List.getLast_singleton, hc, ite_false, hp1, hp2, Option.toList_some, List.nil_append,
      List.append_nil]
    rfl
  rw [hev]
  refine ⟨rfl, ?_, rfl⟩
  intro e he
  rcases List.mem_cons.mp he with rfl | he
  · exact ⟨by norm_num, by norm_num⟩
  rcases List.mem_cons.mp he with rfl | he
  · exact ⟨by norm_num, by norm_num⟩
  · simp at he

/-- Claim C9 (counterexample to the claim as stated): calling the file
analysis with sample rate `0` (invalid, `≤ 0`) on a non-empty one-sample
buffer still performs one frequency-estimator call — the pitch list records
one estimator invocation — and the model (like the source, which contains no
validation and no `ConfigurationError`) returns an ordinary result rather
than failing fast. -/
theorem claim_C9_counterexample :
    (processBufferToSegmentsModel [0] 0 (fun chunk => some 440)).1.length = 1 := rfl

/-- Claim C9 (amended): the analysis performs no configuration validation at
all: for every invalid sample rate (`≤ 0`) and non-empty buffer at least one
estimator call is made (one per 2048-sample chunk), and the "malformed
config" case `hopSize > windowSize` cannot arise because both pipelines
hard-code `hopSize ≤ windowSize` (file: 2048/2048, live: 512/2048). -/
theorem claim_C9_amended (samples : List ℚ) (sr : ℚ) (detect : List ℚ → Option ℚ)
    (hsr : sr ≤ 0) (hne : samples ≠ []) :
    1 ≤ (processBufferToSegmentsModel samples sr detect).1.length ∧
    fileHopSize ≤ fileWindowSize ∧ liveHopSize ≤ liveWindowSize := by
  refine ⟨?_, by norm_num [fileHopSize, fileWindowSize],
    by norm_num [liveHopSize, liveWindowSize]⟩
  match samples, hne with
  | x :: xs, _ =>
    show 1 ≤ ((List.toChunks fileWindowSize (x :: xs)).map detect).length
    rw [List.length_map]
    exact toChunks_length_ge x xs

/-! ### Witnesses -/

/-- Witness for C1 at two concrete 440 Hz segments with zero gap. -/
theorem claim_C1_witness :
    (0 : ℚ) < 440 ∧
    (contOK ⟨0, 1/5, (440 : ℚ)⟩ ⟨1/5, 2/5, (440 : ℚ)⟩ ↔
      round (69 + 12 * Real.logb 2 (((440 : ℚ) : ℝ) / 440)) =
          round (69 + 12 * Real.logb 2 (((440 : ℚ) : ℝ) / 440)) ∧
        (1/5 - 1/5 : ℚ) < 0.1) :=
  ⟨by norm_num,
    (claim_C1_run_continuity false emptyStr []).1 ⟨0, 1/5, 440⟩ ⟨1/5, 2/5, 440⟩
      (by norm_num) (by norm_num)⟩

/-- Witness for C2: a 0.1 s run is discarded. -/
theorem claim_C2_witness :
    processRun false emptyStr [⟨0, 1/10, (440 : ℚ)⟩] = none :=
  (claim_C2_min_duration false emptyStr []).2 [⟨0, 1/10, 440⟩]
    (List.cons_ne_nil _ _) (by norm_num)

/-- Witness for C3: of the frames `[440 Hz, none, 30 Hz]` only the first
survives the file gate. -/
theorem claim_C3_witness :
    (fileSegments [some 440, none, some 30] 44100).length = 1 :=
  ((claim_C3_noise_gate [some 440, none, some 30] 44100 (by norm_num)).2.1).trans (by rfl)

/-- Witness for C4 at a single-segment 0.2 s run at 440 Hz. -/
theorem claim_C4_witness :
    ∃ e, processRun false emptyStr [⟨0, 1/5, (440 : ℚ)⟩] = some e ∧
      e.avgFreq = (([⟨0, 1/5, (440 : ℚ)⟩] : List Segment).map Segment.freq).sum /
        ((([⟨0, 1/5, (440 : ℚ)⟩] : List Segment).length : ℚ)) ∧
      e.midi = round (69 + 12 * Real.logb 2 ((e.avgFreq : ℝ) / 440)) ∧
      0 ≤ e.midi ∧
      e.fullNote = NOTES.getD ((e.midi % 12).toNat) emptyStr ++
        toString (⌊(e.midi : ℚ) / 12⌋ - 1) :=
  claim_C4_event_fields false emptyStr [⟨0, 1/5, 440⟩] (List.cons_ne_nil _ _)
    (by intro s hs; simp only [List.mem_singleton] at hs; rw [hs]; norm_num)
    (by norm_num [List.getLast_singleton, List.head_cons])

/-- Witness for C5: the spike `[220, 880, 225]` is smoothed to `225` at its
middle position. -/
theorem claim_C5_witness :
    ((medianSmooth [⟨0, 1, 220⟩, ⟨1, 2, 880⟩, ⟨2, 3, 225⟩]).get
      ⟨1, by rw [medianSmooth_length]; norm_num⟩).freq = 225 := by
  have h := (claim_C5_median_smoother [⟨0, 1, 220⟩, ⟨1, 2, 880⟩, ⟨2, 3, 225⟩]).2.1 1
    (by norm_num) (by rw [medianSmooth_length]; norm_num)
  rw [h.2.2]
  rfl

/-- Witness for C6: a 0.3 s gap with frame period 0.1 s gets 3 synthetic
segments; the middle one carries the mean frequency. -/
theorem claim_C6_witness :
    (gapFill (1/10) ⟨0, 1, (100 : ℚ)⟩ ⟨13/10, 2, (200 : ℚ)⟩).length = 3 ∧
    (synthAt ⟨0, 1, (100 : ℚ)⟩ ⟨13/10, 2, (200 : ℚ)⟩ (1/10) 3 2).freq = 150 := by
  have h := claim_C6_gap_interpolation (1/10) ⟨0, 1, 100⟩ ⟨13/10, 2, 200⟩ []
  constructor
  · have hl := (h.2.2.1 (by norm_num) (by norm_num)).1
    rw [hl]
    show max 1 ((round (((13 : ℚ)/10 - 1) / (1/10))).toNat) = 3
    norm_num [round_eq]
    rfl
  · have hm := h.2.2.2 3 2 (by norm_num)
    rw [hm]
    norm_num

/-- Witness for C7: with root C the pitch class of MIDI 62 (D) is labelled
Re. -/
theorem claim_C7_witness :
    noteLabelOf true keyC 62 = strRe :=
  ((claim_C7_scale_degree 62 0 0 keyC).1 (by norm_num) (by decide)).trans (by rfl)

/-- Witness for C8 (amended) at a one-segment well-laid-out list. -/
theorem claim_C8_witness :
    (stableNotes false emptyStr [⟨0, 1/5, (440 : ℚ)⟩]).Pairwise EvLE :=
  (claim_C8_amended false emptyStr [⟨0, 1/5, 440⟩]
    ⟨by intro s hs; simp only [List.mem_singleton] at hs; rw [hs]; norm_num,
      List.chain'_singleton _⟩).1

/-- Witness for C9 (amended): a one-sample buffer at an invalid sample rate
still triggers an estimator call. -/
theorem claim_C9_witness :
    1 ≤ (processBufferToSegmentsModel [0] (-1) (fun chunk => none)).1.length :=
  (claim_C9_amended [0] (-1) (fun chunk => none) (by norm_num) (by simp)).1

/-- Evaluation of the aggregator on a single 0.2 s segment at 440 Hz. -/
lemma stableNotes_single_440 :
    stableNotes false emptyStr [⟨0, 1/5, (440 : ℚ)⟩] =
      [⟨0, 1/5, 440, 69, fullNoteOf 69, fullNoteOf 69, fullNoteOf 69⟩] := by
  have hp : processRun false emptyStr [⟨0, 1/5, (440 : ℚ)⟩] =
      some ⟨0, 1/5, 440, 69, fullNoteOf 69, fullNoteOf 69, fullNoteOf 69⟩ := by
    rw [processRun, if_pos (by norm_num)]
    norm_num [getMidi_440, noteLabelOf]
  simp only [stableNotes, List.isEmpty_cons, Bool.false_eq_true, if_false, stableLoop, hp,
    Option.toList_some, List.nil_append]

/-- Witness for C10 at a single-segment run: the event's MIDI 69 is shared by
the run's sole segment. -/
theorem claim_C10_witness :
    ∃ run ∈ runsOf [⟨0, 1/5, (440 : ℚ)⟩],
      processRun false emptyStr run =
        some ⟨0, 1/5, 440, 69, fullNoteOf 69, fullNoteOf 69, fullNoteOf 69⟩ ∧
      ∀ s ∈ run, getMidi s.freq = 69 := by
  have h := claim_C10_midi_stable false emptyStr [⟨0, 1/5, 440⟩]
    (by intro s hs; simp only [List.mem_singleton] at hs; rw [hs]; norm_num)
    ⟨0, 1/5, 440, 69, fullNoteOf 69, fullNoteOf 69, fullNoteOf 69⟩
    (by rw [stableNotes_single_440]; simp)
  exact h
